import Mathlib

/-!
Verification of the bitset and range-query core of the tantivy excerpt
(`src/common/bitset.rs`, `src/query/range_query.rs`,
`src/query/multi_term_scorer.rs`).

Machine integers are modelled as `Nat` with explicit reductions modulo
`2^w` at the points where the Rust code can overflow or wrap:
`u64` values are kept `< 2^64` as an invariant carried in hypotheses,
`u32` arithmetic in `num_buckets` reduces modulo `2^32`, and the
`usize` saturating add saturates at `2^64 - 1`.
-/

namespace Tantivy

/-- Count of trailing zero bits of `n`, with explicit fuel; mirrors the
`u64::trailing_zeros` primitive used by `TinySet::lowest`.  For
`n ≠ 0` and `n < 2^fuel` it returns the index of the lowest set bit. -/
def ctz : Nat → Nat → Nat
  | 0, _ => 0
  | fuel + 1, n => if n % 2 = 1 then 0 else ctz fuel (n / 2) + 1

/-- `TinySet(u64)`: a 64-slot membership bitmask.  `val` is the u64 word
(invariant `val < 2^64`, carried as a hypothesis where needed). -/
structure TinySet where
  val : Nat
deriving DecidableEq, Repr

namespace TinySet

/-- `TinySet::empty`: the all-zero word. -/
def empty : TinySet := ⟨0⟩

/-- `TinySet::intersect`: bitwise AND. -/
def intersect (s other : TinySet) : TinySet := ⟨s.val &&& other.val⟩

/-- `TinySet::complement`: bitwise NOT on a u64, i.e. XOR with `2^64 - 1`. -/
def complement (s : TinySet) : TinySet := ⟨s.val ^^^ (2 ^ 64 - 1)⟩

/-- `TinySet::is_empty`: the word is zero. -/
def is_empty (s : TinySet) : Bool := s.val == 0

/-- `TinySet::insert`: `self.0 |= 1u64 << el`.  Every call site passes
`el < 64` (caller contract per the spec); the `% 64` is the shift-amount
mask the hardware shift applies, a no-op on that domain. -/
def insert (s : TinySet) (el : Nat) : TinySet := ⟨s.val ||| (1 <<< (el % 64))⟩

/-- `TinySet::singleton`: insert into the empty set. -/
def singleton (val : Nat) : TinySet := empty.insert val

/-- `TinySet::contains`: `!self.intersect(singleton(el)).is_empty()`. -/
def contains (s : TinySet) (el : Nat) : Bool := !(s.intersect (singleton el)).is_empty

/-- `TinySet::lowest`: `None` on the empty set, else the trailing-zero
count of the word. -/
def lowest (s : TinySet) : Option Nat :=
  if s.val = 0 then none else some (ctz 64 s.val)

/-- `TinySet::pop_lowest`: returns the lowest member and the set with
that bit cleared (`self.0 ^= singleton(lowest).0`); the state update is
returned explicitly. -/
def pop_lowest (s : TinySet) : Option Nat × TinySet :=
  match s.lowest with
  | some l => (some l, ⟨s.val ^^^ (singleton l).val⟩)
  | none => (none, s)

/-- `TinySet::range_lower`: `(1u64 << (upper_bound % 64)) - 1`. -/
def range_lower (upper_bound : Nat) : TinySet :=
  ⟨(1 <<< (upper_bound % 64)) - 1⟩

/-- `TinySet::range_greater_or_equal`: complement of `range_lower`. -/
def range_greater_or_equal (from_included : Nat) : TinySet :=
  (range_lower from_included).complement

/-- One step of `TinySetIterator::next` per fuel unit: repeatedly
`pop_lowest` on a private copy, collecting the produced values.  64 fuel
always exhausts a u64 word. -/
def toListAux : Nat → TinySet → List Nat
  | 0, _ => []
  | fuel + 1, s =>
    match s.pop_lowest with
    | (some l, s') => l :: toListAux fuel s'
    | (none, _) => []

/-- The full iteration sequence of `TinySetIterator` from a `TinySet`. -/
def toList (s : TinySet) : List Nat := toListAux 64 s

end TinySet

/-- `num_buckets`: `(max_val + 63) / 64` in u32 arithmetic, so the
addition wraps modulo `2^32`. -/
def num_buckets (max_val : Nat) : Nat := ((max_val + 63) % 2 ^ 32) / 64

/-- `BitSet`: a boxed slice of `TinySet` buckets, a `usize` raw
insertion counter `size_hint`, and the immutable `max_value` (u32). -/
structure BitSet where
  tinysets : List TinySet
  size_hint : Nat
  max_value : Nat
deriving Repr

namespace BitSet

/-- `BitSet::with_max_value`: `num_buckets` empty buckets, counter 0. -/
def with_max_value (max_value : Nat) : BitSet :=
  ⟨List.replicate (num_buckets max_value) TinySet.empty, 0, max_value⟩

/-- `BitSet::clear`: reset every bucket to empty; the counter and
`max_value` are untouched. -/
def clear (b : BitSet) : BitSet :=
  { b with tinysets := b.tinysets.map (fun _ => TinySet.empty) }

/-- `BitSet::size_hint` (the method): `min(raw counter, max_value)`,
written as in the source. -/
def size_hint_report (b : BitSet) : Nat :=
  if b.max_value > b.size_hint then b.size_hint else b.max_value

/-- `BitSet::insert`: `size_hint.saturating_add(1)` on a 64-bit
`usize`, then set bit `el % 64` of bucket `el / 64`.  The source indexes
the slice unchecked (panics out of range); all verified uses keep
`el / 64` in range, where `List.set` coincides with the slice store. -/
def insert (b : BitSet) (el : Nat) : BitSet :=
  { b with
    size_hint := min (b.size_hint + 1) (2 ^ 64 - 1),
    tinysets :=
      b.tinysets.set (el / 64)
        ((b.tinysets.getD (el / 64) TinySet.empty).insert (el % 64)) }

/-- `BitSet::tinyset`: bucket accessor. -/
def tinyset (b : BitSet) (bucket : Nat) : TinySet :=
  b.tinysets.getD bucket TinySet.empty

/-- `BitSet::contains`: `self.tinyset(el / 64).contains(el % 64)`. -/
def contains (b : BitSet) (el : Nat) : Bool :=
  (b.tinyset (el / 64)).contains (el % 64)

/-- Folding `BitSet::insert` over a sequence of elements, as the
range-scorer loop does. -/
def insertList (b : BitSet) (els : List Nat) : BitSet :=
  els.foldl insert b

end BitSet

/-! ### Range query model (`src/query/range_query.rs`)

Encoded terms are byte sequences, modelled as `List Nat`, compared in
lexicographic byte order. -/

/-- `std::collections::Bound`, as carried by `RangeQuery`/`RangeWeight`. -/
inductive Bound (α : Type) where
  | included : α → Bound α
  | excluded : α → Bound α
  | unbounded : Bound α
deriving Repr, DecidableEq

/-- `map_bound`: apply the byte encoding to the carried value,
preserving the `Included`/`Excluded`/`Unbounded` tag. -/
def map_bound {α : Type} (bound : Bound α) (transform : α → List Nat) :
    Bound (List Nat) :=
  match bound with
  | .excluded from_val => .excluded (transform from_val)
  | .included from_val => .included (transform from_val)
  | .unbounded => .unbounded

/-- Strict lexicographic order on encoded byte sequences, the order the
term dictionary sorts and compares terms by. -/
def bytesLt : List Nat → List Nat → Bool
  | [], [] => false
  | [], _ :: _ => true
  | _ :: _, [] => false
  | a :: as, b :: bs => if a < b then true else if b < a then false else bytesLt as bs

/-- Non-strict lexicographic order on encoded byte sequences. -/
def bytesLe (a b : List Nat) : Bool := !(bytesLt b a)

/-- Modelled from the spec: the term-dictionary streaming-cursor builder
of §6 (`TermStreamerBuilder`, an external collaborator not in this
excerpt) — a term listing plus one independent restriction per side,
each side's restriction one of `≥`, `>`, `≤`, `<` on encoded bytes, or
unrestricted.  `β` is the per-term payload (postings handle). -/
structure TermStreamerBuilder (β : Type) where
  terms : List (List Nat × β)
  lowerOk : List Nat → Bool
  upperOk : List Nat → Bool

/-- Modelled from the spec: `TermDictionary::range`, the unrestricted
cursor builder over the dictionary. -/
def TermDictionary.range {β : Type} (terms : List (List Nat × β)) :
    TermStreamerBuilder β :=
  ⟨terms, fun _ => true, fun _ => true⟩

namespace TermStreamerBuilder

/-- Modelled from the spec: restrict the lower side to `≥ v`. -/
def ge {β : Type} (bld : TermStreamerBuilder β) (v : List Nat) :
    TermStreamerBuilder β :=
  { bld with lowerOk := fun t => bytesLe v t }

/-- Modelled from the spec: restrict the lower side to `> v`. -/
def gt {β : Type} (bld : TermStreamerBuilder β) (v : List Nat) :
    TermStreamerBuilder β :=
  { bld with lowerOk := fun t => bytesLt v t }

/-- Modelled from the spec: restrict the upper side to `≤ v`. -/
def le {β : Type} (bld : TermStreamerBuilder β) (v : List Nat) :
    TermStreamerBuilder β :=
  { bld with upperOk := fun t => bytesLe t v }

/-- Modelled from the spec: restrict the upper side to `< v`. -/
def lt {β : Type} (bld : TermStreamerBuilder β) (v : List Nat) :
    TermStreamerBuilder β :=
  { bld with upperOk := fun t => bytesLt t v }

/-- Modelled from the spec: `into_stream` — the cursor yields, in
dictionary order, exactly the terms passing both restrictions. -/
def into_stream {β : Type} (bld : TermStreamerBuilder β) :
    List (List Nat × β) :=
  bld.terms.filter (fun e => bld.lowerOk e.1 && bld.upperOk e.1)

end TermStreamerBuilder

/-- `RangeWeight`: the per-search compiled form of a `RangeQuery`. -/
structure RangeWeight where
  field : Nat
  left_bound : Bound (List Nat)
  right_bound : Bound (List Nat)

/-- `RangeWeight::term_range`: chain the builder restrictions dictated
by the two bound tags, then `into_stream`. -/
def RangeWeight.term_range {β : Type} (w : RangeWeight)
    (term_dict : List (List Nat × β)) : List (List Nat × β) :=
  let b0 := TermDictionary.range term_dict
  let b1 :=
    match w.left_bound with
    | .included term_val => b0.ge term_val
    | .excluded term_val => b0.gt term_val
    | .unbounded => b0
  let b2 :=
    match w.right_bound with
    | .included term_val => b1.le term_val
    | .excluded term_val => b1.lt term_val
    | .unbounded => b1
  b2.into_stream

/-- The predicate the spec assigns to a left (lower) bound tag. -/
def lowerMatch : Bound (List Nat) → List Nat → Bool
  | .included v, t => bytesLe v t
  | .excluded v, t => bytesLt v t
  | .unbounded, _ => true

/-- The predicate the spec assigns to a right (upper) bound tag. -/
def upperMatch : Bound (List Nat) → List Nat → Bool
  | .included v, t => bytesLe t v
  | .excluded v, t => bytesLt t v
  | .unbounded, _ => true

/-- Modelled from the spec (§6): the segment reader exposes `max_doc`
and, per field, the inverted index as term entries, each carrying its
postings blocks of ascending duplicate-free doc ids; the on-disk reader
machinery is an external collaborator not in this excerpt. -/
structure SegmentReader where
  max_doc : Nat
  invIndex : Nat → List (List Nat × List (List Nat))

/-- `RangeWeight::scorer` with the collaborators used as in the source
(the source body has no failing sub-call): allocate a fresh BitSet of
capacity `max_doc`, stream the in-range terms, insert every doc id of
every postings block, and wrap the finished set in the constant scorer.
The external `ConstScorer` is modelled from the spec as the pair of the
document set with the constant score 1 (f32 scores as exact rationals). -/
def RangeWeight.scorer (w : RangeWeight) (reader : SegmentReader) :
    BitSet × ℚ :=
  let max_doc := reader.max_doc
  let doc_bitset := BitSet.with_max_value max_doc
  let term_dict := reader.invIndex w.field
  let stream := w.term_range term_dict
  let doc_bitset := stream.foldl
    (fun bs entry => entry.2.foldl (fun b block => b.insertList block) bs)
    doc_bitset
  (doc_bitset, 1)

/-- Modelled from the spec (§6, §7): the fallible view of the same
segment access — the term-dictionary read and each term's postings
decode may fail on corrupted or truncated segment data. -/
structure SegmentReaderE where
  max_doc : Nat
  dict : Except String (List (List Nat × Except String (List (List Nat))))

/-- Modelled from the spec: one iteration of the term loop of `scorer`
over the fallible interfaces — decode the term's postings (propagating a
failed read) and insert every doc id of every block. -/
def scorerStep (b : BitSet)
    (entry : List Nat × Except String (List (List Nat))) :
    Except String BitSet := do
  let blocks ← entry.2
  pure (blocks.foldl (fun b2 block => b2.insertList block) b)

/-- Modelled from the spec (§4.4 failure semantics): `RangeWeight::scorer`
over the fallible interfaces — a failed read propagates immediately out
of the call, with no retry and no partial-bitset fallback. -/
def RangeWeight.scorerE (w : RangeWeight) (reader : SegmentReaderE) :
    Except String (BitSet × ℚ) := do
  let entries ← reader.dict
  let stream := w.term_range entries
  let bs ← stream.foldlM scorerStep (BitSet.with_max_value reader.max_doc)
  pure (bs, 1)

/-! ### `MultiTermScorer` (`src/query/multi_term_scorer.rs`)

The `f32` coordination factors, idf weights and running score are
modelled as exact rationals; the claims verified about this component
concern the accumulation structure, not rounding. -/

structure MultiTermScorer where
  coords : List ℚ
  idf : List ℚ
  score : ℚ
  num_fields : Nat

namespace MultiTermScorer

/-- `MultiTermScorer::new`: `coords.insert(0, 0.0)` prepends a zero
coordination factor; score 0, no fields yet. -/
def new (coords idf : List ℚ) : MultiTermScorer :=
  ⟨0 :: coords, idf, 0, 0⟩

/-- `MultiTermScorer::update`: `score += term_freq * idf[term_ord]`;
`num_fields += 1`.  The source indexes `idf` unchecked; verified uses
keep `term_ord` in range, where `getD` coincides with the load. -/
def update (s : MultiTermScorer) (term_ord : Nat) (term_freq : Nat) :
    MultiTermScorer :=
  { s with
    score := s.score + (term_freq : ℚ) * s.idf.getD term_ord 0,
    num_fields := s.num_fields + 1 }

/-- `MultiTermScorer::coord`: `coords[num_fields]`. -/
def coord (s : MultiTermScorer) : ℚ := s.coords.getD s.num_fields 0

/-- `MultiTermScorer::clear`: reset score and field count. -/
def clear (s : MultiTermScorer) : MultiTermScorer :=
  { s with score := 0, num_fields := 0 }

/-- `Scorer::score` for `MultiTermScorer`: `score * coord()`. -/
def score_val (s : MultiTermScorer) : ℚ := s.score * s.coord

/-- A sequence of `update` calls, each a `(term_ord, term_freq)` pair. -/
def updates (s : MultiTermScorer) (us : List (Nat × Nat)) : MultiTermScorer :=
  us.foldl (fun a u => a.update u.1 u.2) s

end MultiTermScorer

/-! ### Bit-level lemmas about `TinySet` -/

namespace TinySet

lemma eq_of_val_eq {s t : TinySet} (h : s.val = t.val) : s = t := by
  cases s; cases t; simpa using h

lemma testBit_eq_false_of_ge {v j : Nat} (hv : v < 2 ^ 64) (hj : 64 ≤ j) :
    v.testBit j = false :=
  Nat.testBit_lt_two_pow
    (lt_of_lt_of_le hv (Nat.pow_le_pow_right (by norm_num) hj))

lemma singleton_val (v : Nat) : (singleton v).val = 2 ^ (v % 64) := by
  simp [singleton, insert, empty, Nat.shiftLeft_eq]

lemma contains_eq_testBit (s : TinySet) (el : Nat) :
    s.contains el = s.val.testBit (el % 64) := by
  simp only [contains, intersect, is_empty, singleton_val]
  rw [Nat.and_two_pow]
  cases hb : s.val.testBit (el % 64)
  · simp [hb]
  · have h2 : (1 : Nat) * 2 ^ (el % 64) ≠ 0 := by positivity
    simp [hb, h2]

lemma insert_testBit (s : TinySet) (el j : Nat) :
    (s.insert el).val.testBit j = (s.val.testBit j || decide (el % 64 = j)) := by
  simp [insert, Nat.shiftLeft_eq, Nat.testBit_lor, Nat.testBit_two_pow]

lemma insert_contains (s : TinySet) (el i : Nat) :
    (s.insert el).contains i = (s.contains i || decide (el % 64 = i % 64)) := by
  rw [contains_eq_testBit, contains_eq_testBit, insert_testBit]

lemma insert_insert_self (s : TinySet) (el : Nat) :
    (s.insert el).insert el = s.insert el := by
  apply eq_of_val_eq
  apply Nat.eq_of_testBit_eq
  intro i
  rw [insert_testBit, insert_testBit, Bool.or_assoc, Bool.or_self]

lemma ctz_spec : ∀ (fuel n : Nat), n ≠ 0 → n < 2 ^ fuel →
    n.testBit (ctz fuel n) = true ∧ ∀ j, j < ctz fuel n → n.testBit j = false := by
  intro fuel
  induction fuel with
  | zero => intro n h0 hlt; simp at hlt; omega
  | succ f ih =>
    intro n h0 hlt
    by_cases hpar : n % 2 = 1
    · refine ⟨by simp [ctz, hpar, Nat.testBit_zero], ?_⟩
      intro j hj
      simp [ctz, hpar] at hj
    · have hmod : n % 2 = 0 := by omega
      have h2 : n / 2 ≠ 0 := by omega
      have hlt2 : n / 2 < 2 ^ f := by
        have hpow : 2 ^ (f + 1) = 2 * 2 ^ f := by ring
        omega
      obtain ⟨hbit, hlow⟩ := ih (n / 2) h2 hlt2
      have hctz : ctz (f + 1) n = ctz f (n / 2) + 1 := by simp [ctz, hpar]
      constructor
      · rw [hctz, Nat.testBit_succ]
        exact hbit
      · intro j hj
        rw [hctz] at hj
        match j with
        | 0 => simp [Nat.testBit_zero, hmod]
        | j' + 1 =>
          rw [Nat.testBit_succ]
          exact hlow j' (by omega)

/-- Iterating `pop_lowest` enumerates the set bits in strictly ascending
order, provided all set bits lie in the window still covered by fuel. -/
lemma toListAux_spec : ∀ (fuel v : Nat), v < 2 ^ 64 →
    (∀ j, v.testBit j = true → 64 - fuel ≤ j) →
    (toListAux fuel ⟨v⟩).Pairwise (· < ·) ∧
      ∀ x, x ∈ toListAux fuel ⟨v⟩ ↔ v.testBit x = true := by
  intro fuel
  induction fuel with
  | zero =>
    intro v hv hbits
    refine ⟨by simp [toListAux], ?_⟩
    intro x
    simp only [toListAux, List.not_mem_nil, false_iff]
    intro hx
    have h64 : 64 ≤ x := by simpa using hbits x hx
    rw [testBit_eq_false_of_ge hv h64] at hx
    exact absurd hx (by simp)
  | succ f ih =>
    intro v hv hbits
    by_cases hv0 : v = 0
    · subst hv0
      refine ⟨by simp [toListAux, pop_lowest, lowest], ?_⟩
      intro x
      simp [toListAux, pop_lowest, lowest, Nat.zero_testBit]
    · obtain ⟨hbit, hlow⟩ := ctz_spec 64 v hv0 hv
      set l := ctz 64 v with hl
      have hl64 : l < 64 := by
        by_contra hcon
        push_neg at hcon
        rw [testBit_eq_false_of_ge hv hcon] at hbit
        exact absurd hbit (by simp)
      have hstep : toListAux (f + 1) ⟨v⟩ = l :: toListAux f ⟨v ^^^ 2 ^ l⟩ := by
        simp [toListAux, pop_lowest, lowest, hv0, singleton_val,
          Nat.mod_eq_of_lt hl64, hl]
      have htb : ∀ j, (v ^^^ 2 ^ l).testBit j
          = if j = l then !(v.testBit j) else v.testBit j := by
        intro j
        rw [Nat.testBit_xor]
        by_cases hj : j = l
        · subst hj; simp [Nat.testBit_two_pow_self]
        · rw [if_neg hj, Nat.testBit_two_pow_of_ne (fun h => hj h.symm),
            Bool.xor_false]
      have hv'bits : ∀ j, (v ^^^ 2 ^ l).testBit j = true → l < j := by
        intro j hj
        rw [htb j] at hj
        by_cases hjl : j = l
        · rw [if_pos hjl, hjl, hbit] at hj
          exact absurd hj (by simp)
        · rw [if_neg hjl] at hj
          have hnotlt : ¬ j < l := fun hlt => by
            rw [hlow j hlt] at hj; exact absurd hj (by simp)
          omega
      have hv'lt : (v ^^^ 2 ^ l) < 2 ^ 64 :=
        Nat.xor_lt_two_pow hv (Nat.pow_lt_pow_right (by norm_num) hl64)
      have hbound : ∀ j, (v ^^^ 2 ^ l).testBit j = true → 64 - f ≤ j := by
        intro j hj
        have hlj := hv'bits j hj
        have hll : 64 - (f + 1) ≤ l := hbits l hbit
        omega
      obtain ⟨hpw, hmem⟩ := ih (v ^^^ 2 ^ l) hv'lt hbound
      rw [hstep]
      constructor
      · refine List.Pairwise.cons ?_ hpw
        intro y hy
        exact hv'bits y ((hmem y).mp hy)
      · intro x
        rw [List.mem_cons, hmem x]
        constructor
        · rintro (rfl | hx)
          · exact hbit
          · rw [htb x] at hx
            by_cases hxl : x = l
            · subst hxl; exact hbit
            · rwa [if_neg hxl] at hx
        · intro hx
          by_cases hxl : x = l
          · exact Or.inl hxl
          · refine Or.inr ?_
            rw [htb x, if_neg hxl]
            exact hx

/-- The full 64-fuel iteration: ascending, and membership is exactly the
set bits of the word. -/
lemma toList_spec (s : TinySet) (hv : s.val < 2 ^ 64) :
    s.toList.Pairwise (· < ·) ∧ ∀ x, x ∈ s.toList ↔ s.val.testBit x = true := by
  obtain ⟨v⟩ := s
  exact toListAux_spec 64 v hv (fun j _ => by omega)

end TinySet

/-! ### Lemmas about `BitSet` -/

namespace BitSet

lemma empty_contains (el : Nat) : TinySet.empty.contains el = false := by
  rw [TinySet.contains_eq_testBit]
  exact Nat.zero_testBit _

lemma getD_replicate (n i : Nat) :
    (List.replicate n TinySet.empty).getD i TinySet.empty = TinySet.empty := by
  induction n generalizing i with
  | zero => simp
  | succ k ih =>
    cases i with
    | zero => simp [List.replicate_succ]
    | succ j => simp [List.replicate_succ, ih]

lemma getD_map_const_empty (l : List TinySet) (i : Nat) :
    (l.map (fun _ => TinySet.empty)).getD i TinySet.empty = TinySet.empty := by
  induction l generalizing i with
  | nil => simp
  | cons a t ih =>
    cases i with
    | zero => simp
    | succ j => simp [ih]

lemma insert_tinysets_length (b : BitSet) (el : Nat) :
    (b.insert el).tinysets.length = b.tinysets.length := by
  simp [insert]

lemma contains_insert (b : BitSet) (el e : Nat)
    (hel : el / 64 < b.tinysets.length) :
    (b.insert el).contains e = (b.contains e || decide (e = el)) := by
  by_cases hb : e / 64 = el / 64
  · simp only [contains, tinyset, insert, hb]
    rw [List.getD_eq_getElem?_getD, List.getElem?_set_self hel]
    rw [show (some ((b.tinysets.getD (el / 64) TinySet.empty).insert (el % 64))).getD
        TinySet.empty
        = (b.tinysets.getD (el / 64) TinySet.empty).insert (el % 64) from rfl]
    rw [TinySet.insert_contains]
    have hiff : (el % 64 % 64 = e % 64 % 64) ↔ (e = el) := by omega
    rw [decide_eq_decide.mpr hiff]
  · have hne : e ≠ el := fun h => hb (by rw [h])
    simp only [contains, tinyset, insert]
    rw [List.getD_eq_getElem?_getD, List.getElem?_set_ne (fun h => hb h.symm),
      ← List.getD_eq_getElem?_getD]
    simp [hne]

lemma insertList_contains (V : List Nat) (b : BitSet)
    (hV : ∀ v ∈ V, v / 64 < b.tinysets.length) (e : Nat) :
    (b.insertList V).contains e = (b.contains e || decide (e ∈ V)) := by
  induction V generalizing b with
  | nil => simp [insertList]
  | cons v vs ih =>
    have hv : v / 64 < b.tinysets.length := hV v (by simp)
    have hrest : ∀ u ∈ vs, u / 64 < (b.insert v).tinysets.length := by
      intro u hu
      rw [insert_tinysets_length]
      exact hV u (by simp [hu])
    rw [show b.insertList (v :: vs) = (b.insert v).insertList vs from rfl,
      ih (b.insert v) hrest, contains_insert b v e hv]
    simp [List.mem_cons, Bool.decide_or, Bool.or_assoc]

lemma with_max_value_contains (m e : Nat) :
    (with_max_value m).contains e = false := by
  simp only [with_max_value, contains, tinyset]
  rw [getD_replicate]
  exact empty_contains _

lemma div64_lt_num_buckets {x m : Nat} (hx : x < m) (hm : m + 63 < 2 ^ 32) :
    x / 64 < num_buckets m := by
  unfold num_buckets
  rw [Nat.mod_eq_of_lt hm]
  omega

end BitSet

/-! ### Claim theorems for the bitset component -/

/-- C1: for a list of values `V` (any order, repetitions allowed), all
below a capacity `M`, inserting every element of `V` into
`BitSet::with_max_value(M)` makes `contains(e)` true exactly for the
`e` in `[0, M)` that occur in `V`.  (`M` is kept below the point where
the u32 bucket-count arithmetic would wrap.) -/
theorem C1_bitset_contains_iff (V : List Nat) (M : Nat)
    (hM : M + 63 < 2 ^ 32) (hV : ∀ v ∈ V, v < M) :
    ∀ e, e < M →
      ((BitSet.with_max_value M).insertList V).contains e = decide (e ∈ V) := by
  intro e _
  have hlen : ∀ v ∈ V, v / 64 < (BitSet.with_max_value M).tinysets.length := by
    intro v hv
    simpa [BitSet.with_max_value] using
      BitSet.div64_lt_num_buckets (hV v hv) hM
  rw [BitSet.insertList_contains V _ hlen e, BitSet.with_max_value_contains,
    Bool.false_or]

/-- Witness for C1 at `M = 10`, `V = [3, 7, 7, 1]`. -/
theorem C1_witness :
    (10 + 63 < 2 ^ 32) ∧ (∀ v ∈ [3, 7, 7, 1], v < 10) ∧
      ∀ e, e < 10 →
        ((BitSet.with_max_value 10).insertList [3, 7, 7, 1]).contains e
          = decide (e ∈ [3, 7, 7, 1]) :=
  ⟨by decide, by decide,
    C1_bitset_contains_iff [3, 7, 7, 1] 10 (by decide) (by decide)⟩

/-- C4: for `n < 64`, `range_lower n` is exactly `{0,…,n-1}` and
`range_greater_or_equal n` exactly `{n,…,63}`; at exactly 64 the mod-64
wrap makes `range_lower 64` the empty set and
`range_greater_or_equal 64` the full 64-element set. -/
theorem C4_tinyset_range :
    (∀ n, n < 64 → ∀ e, e < 64 →
      (TinySet.range_lower n).contains e = decide (e < n) ∧
        (TinySet.range_greater_or_equal n).contains e = decide (n ≤ e)) ∧
    TinySet.range_lower 64 = TinySet.empty ∧
    ∀ e, e < 64 → (TinySet.range_greater_or_equal 64).contains e = true := by
  refine ⟨?_, by decide, ?_⟩
  · intro n hn e he
    constructor
    · rw [TinySet.contains_eq_testBit]
      show ((1 <<< (n % 64) - 1 : Nat)).testBit (e % 64) = decide (e < n)
      rw [Nat.shiftLeft_eq, one_mul, Nat.mod_eq_of_lt hn, Nat.mod_eq_of_lt he,
        Nat.testBit_two_pow_sub_one]
    · rw [TinySet.contains_eq_testBit]
      show ((1 <<< (n % 64) - 1 : Nat) ^^^ (2 ^ 64 - 1)).testBit (e % 64)
        = decide (n ≤ e)
      rw [Nat.shiftLeft_eq, one_mul, Nat.mod_eq_of_lt hn, Nat.mod_eq_of_lt he,
        Nat.testBit_xor, Nat.testBit_two_pow_sub_one,
        Nat.testBit_two_pow_sub_one]
      by_cases h : e < n
      · have h2 : ¬ n ≤ e := by omega
        simp [h, he, h2]
      · have h2 : n ≤ e := by omega
        simp [h, he, h2]
  · intro e he
    rw [TinySet.contains_eq_testBit]
    show ((1 <<< (64 % 64) - 1 : Nat) ^^^ (2 ^ 64 - 1)).testBit (e % 64) = true
    have hval : (1 <<< (64 % 64) - 1 : Nat) ^^^ (2 ^ 64 - 1) = 2 ^ 64 - 1 := by
      decide
    rw [hval, Nat.mod_eq_of_lt he, Nat.testBit_two_pow_sub_one]
    simpa using he

/-- Witness for C4 at `n = 3`, `e = 5`. -/
theorem C4_witness :
    ((3 : Nat) < 64) ∧ ((5 : Nat) < 64) ∧
      ((TinySet.range_lower 3).contains 5 = decide ((5 : Nat) < 3) ∧
        (TinySet.range_greater_or_equal 3).contains 5 = decide ((3 : Nat) ≤ 5)) :=
  ⟨by decide, by decide, C4_tinyset_range.1 3 (by decide) 5 (by decide)⟩

/-- C5: `with_max_value` allocates exactly `ceil(max/64) = (max+63)/64`
empty buckets with counter 0 (below the u32 wrap point), and the six
quoted bucket counts hold. -/
theorem C5_with_max_value (m : Nat) (hm : m + 63 < 2 ^ 32) :
    num_buckets m = (m + 63) / 64 ∧
    (BitSet.with_max_value m).tinysets
      = List.replicate ((m + 63) / 64) TinySet.empty ∧
    (BitSet.with_max_value m).size_hint = 0 ∧
    (BitSet.with_max_value m).size_hint_report = 0 ∧
    num_buckets 0 = 0 ∧ num_buckets 1 = 1 ∧ num_buckets 64 = 1 ∧
    num_buckets 65 = 2 ∧ num_buckets 128 = 2 ∧ num_buckets 129 = 3 := by
  have hnb : num_buckets m = (m + 63) / 64 := by
    unfold num_buckets
    rw [Nat.mod_eq_of_lt hm]
  refine ⟨hnb, by simp [BitSet.with_max_value, hnb], rfl, ?_,
    by decide, by decide, by decide, by decide, by decide, by decide⟩
  simp only [BitSet.size_hint_report, BitSet.with_max_value]
  split <;> omega

/-- Witness for C5 at `m = 129`. -/
theorem C5_witness :
    (129 + 63 < 2 ^ 32) ∧
      (num_buckets 129 = (129 + 63) / 64 ∧
        (BitSet.with_max_value 129).tinysets
          = List.replicate ((129 + 63) / 64) TinySet.empty ∧
        (BitSet.with_max_value 129).size_hint = 0 ∧
        (BitSet.with_max_value 129).size_hint_report = 0 ∧
        num_buckets 0 = 0 ∧ num_buckets 1 = 1 ∧ num_buckets 64 = 1 ∧
        num_buckets 65 = 2 ∧ num_buckets 128 = 2 ∧ num_buckets 129 = 3) :=
  ⟨by decide, C5_with_max_value 129 (by decide)⟩

/-- C6: `clear` empties the whole set — `contains` is false everywhere
afterwards — while the raw `size_hint` counter and `max_value` are left
unchanged. -/
theorem C6_clear (b : BitSet) (e : Nat) :
    b.clear.contains e = false ∧ b.clear.size_hint = b.size_hint ∧
      b.clear.max_value = b.max_value := by
  refine ⟨?_, rfl, rfl⟩
  simp only [BitSet.clear, BitSet.contains, BitSet.tinyset]
  rw [BitSet.getD_map_const_empty]
  exact BitSet.empty_contains _

/-- C7: every `insert` bumps the raw counter by exactly one, saturating
at `usize::MAX = 2^64 - 1` (also on duplicate inserts); no operation
decreases it; and the `size_hint()` method reports
`min(raw counter, max_value)`. -/
theorem C7_size_hint (b : BitSet) (el : Nat) (h : b.size_hint < 2 ^ 64) :
    (b.insert el).size_hint = min (b.size_hint + 1) (2 ^ 64 - 1) ∧
    b.size_hint ≤ (b.insert el).size_hint ∧
    b.clear.size_hint = b.size_hint ∧
    b.size_hint_report = min b.size_hint b.max_value := by
  refine ⟨rfl, ?_, rfl, ?_⟩
  · show b.size_hint ≤ min (b.size_hint + 1) (2 ^ 64 - 1)
    omega
  · unfold BitSet.size_hint_report
    rcases le_or_lt b.max_value b.size_hint with hle | hlt
    · rw [if_neg (by omega), Nat.min_eq_right hle]
    · rw [if_pos hlt, Nat.min_eq_left (by omega)]

/-- Witness for C7 on a small freshly built bitset. -/
theorem C7_witness :
    (BitSet.with_max_value 5).size_hint < 2 ^ 64 ∧
      (((BitSet.with_max_value 5).insert 3).size_hint
          = min ((BitSet.with_max_value 5).size_hint + 1) (2 ^ 64 - 1) ∧
        (BitSet.with_max_value 5).size_hint
          ≤ ((BitSet.with_max_value 5).insert 3).size_hint ∧
        (BitSet.with_max_value 5).clear.size_hint
          = (BitSet.with_max_value 5).size_hint ∧
        (BitSet.with_max_value 5).size_hint_report
          = min (BitSet.with_max_value 5).size_hint
              (BitSet.with_max_value 5).max_value) :=
  ⟨by decide, C7_size_hint (BitSet.with_max_value 5) 3 (by decide)⟩

/-- C8: iterating a `TinySet` yields a strictly ascending, duplicate-free
sequence whose members are exactly the contained values (all `< 64`),
and duplicate inserts do not change the set (so they cannot change the
sequence); iteration works on a value copy, leaving the original
available. -/
theorem C8_tinyset_iteration (s : TinySet) (hv : s.val < 2 ^ 64) :
    s.toList.Pairwise (· < ·) ∧ s.toList.Nodup ∧
    (∀ x, x ∈ s.toList ↔ x < 64 ∧ s.contains x = true) ∧
    ∀ v, (s.insert v).insert v = s.insert v := by
  obtain ⟨hpw, hmem⟩ := TinySet.toList_spec s hv
  refine ⟨hpw, hpw.nodup, ?_, fun v => TinySet.insert_insert_self s v⟩
  intro x
  rw [hmem x]
  constructor
  · intro hx
    have hx64 : x < 64 := by
      by_contra hcon
      push_neg at hcon
      rw [TinySet.testBit_eq_false_of_ge hv hcon] at hx
      exact absurd hx (by simp)
    refine ⟨hx64, ?_⟩
    rw [TinySet.contains_eq_testBit, Nat.mod_eq_of_lt hx64]
    exact hx
  · rintro ⟨hx64, hc⟩
    rw [TinySet.contains_eq_testBit, Nat.mod_eq_of_lt hx64] at hc
    exact hc

/-- Witness for C8 on the set built by inserting 3, 5, and 3 again. -/
theorem C8_witness :
    (((TinySet.empty.insert 3).insert 5).insert 3).val < 2 ^ 64 ∧
      ((((TinySet.empty.insert 3).insert 5).insert 3).toList.Pairwise (· < ·) ∧
        (((TinySet.empty.insert 3).insert 5).insert 3).toList.Nodup ∧
        (∀ x, x ∈ (((TinySet.empty.insert 3).insert 5).insert 3).toList ↔
          x < 64 ∧ (((TinySet.empty.insert 3).insert 5).insert 3).contains x = true) ∧
        ∀ v, ((((TinySet.empty.insert 3).insert 5).insert 3).insert v).insert v
          = (((TinySet.empty.insert 3).insert 5).insert 3).insert v) :=
  ⟨by decide, C8_tinyset_iteration (((TinySet.empty.insert 3).insert 5).insert 3)
    (by decide)⟩

/-! ### Claim theorems for the range-query component -/

/-- C3: the bounded cursor built by `term_range` yields exactly the
dictionary entries whose term passes, per side, the predicate dictated
by the bound tag: on the left `Included v ⇒ v ≤ t`, `Excluded v ⇒ v < t`;
on the right `Included v ⇒ t ≤ v`, `Excluded v ⇒ t < v`; `Unbounded`
imposes no restriction on its side. -/
theorem C3_term_range_bounds {β : Type} (w : RangeWeight)
    (term_dict : List (List Nat × β)) (entry : List Nat × β) :
    entry ∈ w.term_range term_dict ↔
      entry ∈ term_dict ∧ lowerMatch w.left_bound entry.1 = true ∧
        upperMatch w.right_bound entry.1 = true := by
  cases hl : w.left_bound <;> cases hr : w.right_bound <;>
    simp [RangeWeight.term_range, TermDictionary.range, hl, hr,
      TermStreamerBuilder.ge, TermStreamerBuilder.gt, TermStreamerBuilder.le,
      TermStreamerBuilder.lt, TermStreamerBuilder.into_stream,
      lowerMatch, upperMatch, List.mem_filter, and_assoc]

lemma insertList_max_value (b : BitSet) (els : List Nat) :
    (b.insertList els).max_value = b.max_value := by
  induction els generalizing b with
  | nil => rfl
  | cons v vs ih =>
    rw [show b.insertList (v :: vs) = (b.insert v).insertList vs from rfl, ih]
    rfl

lemma insertList_append (b : BitSet) (l1 l2 : List Nat) :
    b.insertList (l1 ++ l2) = (b.insertList l1).insertList l2 :=
  List.foldl_append _ _ _ _

/-- The inner postings loop of `scorer` inserts exactly the flattened
block contents. -/
lemma foldl_blocks_eq_insertList (blocks : List (List Nat)) (b : BitSet) :
    blocks.foldl (fun b2 block => b2.insertList block) b
      = b.insertList blocks.flatten := by
  induction blocks generalizing b with
  | nil => rfl
  | cons blk rest ih => simp [List.flatten_cons, ih, insertList_append]

/-- The term loop of `scorer` inserts exactly the doc ids of all
postings blocks of all streamed terms. -/
lemma foldl_entries_eq_insertList
    (entries : List (List Nat × List (List Nat))) (b : BitSet) :
    entries.foldl
        (fun bs entry => entry.2.foldl (fun b2 block => b2.insertList block) bs)
        b
      = b.insertList (entries.flatMap (fun e => e.2.flatten)) := by
  induction entries generalizing b with
  | nil => rfl
  | cons e rest ih =>
    simp only [List.foldl_cons]
    rw [foldl_blocks_eq_insertList, ih, List.flatMap_cons, insertList_append]

/-- C2: `scorer` returns a constant-score scorer whose BitSet has
capacity `max_doc` and contains exactly the doc ids that occur in some
postings block of some term produced by the bounded cursor, with the
fixed score 1 however many in-range terms a document matched. -/
theorem C2_scorer (w : RangeWeight) (r : SegmentReader)
    (hm : r.max_doc + 63 < 2 ^ 32)
    (hdocs : ∀ entry ∈ w.term_range (r.invIndex w.field), ∀ block ∈ entry.2,
      ∀ d ∈ block, d < r.max_doc) :
    (w.scorer r).1.max_value = r.max_doc ∧
    (w.scorer r).2 = 1 ∧
    ∀ d, d < r.max_doc →
      ((w.scorer r).1.contains d = true ↔
        ∃ entry ∈ w.term_range (r.invIndex w.field),
          ∃ block ∈ entry.2, d ∈ block) := by
  have hfold : (w.scorer r).1
      = (BitSet.with_max_value r.max_doc).insertList
          ((w.term_range (r.invIndex w.field)).flatMap (fun e => e.2.flatten)) := by
    exact foldl_entries_eq_insertList _ _
  have hdl : ∀ v ∈ (w.term_range (r.invIndex w.field)).flatMap
      (fun e => e.2.flatten), v < r.max_doc := by
    intro v hv
    rw [List.mem_flatMap] at hv
    obtain ⟨entry, hentry, hvf⟩ := hv
    rw [List.mem_flatten] at hvf
    obtain ⟨block, hblock, hvb⟩ := hvf
    exact hdocs entry hentry block hblock v hvb
  refine ⟨by rw [hfold, insertList_max_value]; rfl, rfl, ?_⟩
  intro d hd
  rw [hfold, C1_bitset_contains_iff _ r.max_doc hm hdl d hd,
    decide_eq_true_iff, List.mem_flatMap]
  constructor
  · rintro ⟨entry, hentry, hdf⟩
    rw [List.mem_flatten] at hdf
    obtain ⟨block, hblock, hdb⟩ := hdf
    exact ⟨entry, hentry, block, hblock, hdb⟩
  · rintro ⟨entry, hentry, block, hblock, hdb⟩
    exact ⟨entry, hentry, List.mem_flatten.mpr ⟨block, hblock, hdb⟩⟩

/-- Witness for C2: two of three dictionary terms fall in `[[1], [3])`;
their doc ids are 1, 2 and 5. -/
theorem C2_witness :
    ((10 : Nat) + 63 < 2 ^ 32) ∧
      (∀ entry ∈ (RangeWeight.mk 0 (Bound.included [1]) (Bound.excluded [3])).term_range
          ((SegmentReader.mk 10 (fun _ =>
            [([0], [[7]]), ([1], [[1, 2]]), ([2], [[2, 5]]), ([3], [[9]])])).invIndex
            (RangeWeight.mk 0 (Bound.included [1]) (Bound.excluded [3])).field),
        ∀ block ∈ entry.2, ∀ d ∈ block, d < (10 : Nat)) ∧
      (((RangeWeight.mk 0 (Bound.included [1]) (Bound.excluded [3])).scorer
          (SegmentReader.mk 10 (fun _ =>
            [([0], [[7]]), ([1], [[1, 2]]), ([2], [[2, 5]]), ([3], [[9]])]))).1.max_value = 10 ∧
        ((RangeWeight.mk 0 (Bound.included [1]) (Bound.excluded [3])).scorer
          (SegmentReader.mk 10 (fun _ =>
            [([0], [[7]]), ([1], [[1, 2]]), ([2], [[2, 5]]), ([3], [[9]])]))).2 = 1 ∧
        ∀ d, d < 10 →
          (((RangeWeight.mk 0 (Bound.included [1]) (Bound.excluded [3])).scorer
              (SegmentReader.mk 10 (fun _ =>
                [([0], [[7]]), ([1], [[1, 2]]), ([2], [[2, 5]]), ([3], [[9]])]))).1.contains d = true ↔
            ∃ entry ∈ (RangeWeight.mk 0 (Bound.included [1]) (Bound.excluded [3])).term_range
                ((SegmentReader.mk 10 (fun _ =>
                  [([0], [[7]]), ([1], [[1, 2]]), ([2], [[2, 5]]), ([3], [[9]])])).invIndex
                  (RangeWeight.mk 0 (Bound.included [1]) (Bound.excluded [3])).field),
              ∃ block ∈ entry.2, d ∈ block)) :=
  ⟨by decide, by decide,
    C2_scorer (RangeWeight.mk 0 (Bound.included [1]) (Bound.excluded [3]))
      (SegmentReader.mk 10 (fun _ =>
        [([0], [[7]]), ([1], [[1, 2]]), ([2], [[2, 5]]), ([3], [[9]])]))
      (by decide) (by decide)⟩

/-- The postings fold of `scorerE` fails exactly when some streamed
entry's postings read fails. -/
lemma foldlM_scorerStep_error_iff
    (entries : List (List Nat × Except String (List (List Nat))))
    (b : BitSet) :
    (∃ err, entries.foldlM scorerStep b = Except.error err)
      ↔ ∃ entry ∈ entries, ∃ err, entry.2 = Except.error err := by
  induction entries generalizing b with
  | nil => simp [List.foldlM_nil, pure, Except.pure]
  | cons e rest ih =>
    obtain ⟨tm, pe⟩ := e
    cases pe with
    | error er =>
      have hval : ((tm, Except.error er) :: rest).foldlM scorerStep b
          = Except.error er := by
        rw [List.foldlM_cons]
        rfl
      rw [hval]
      constructor
      · intro _
        exact ⟨(tm, Except.error er), by simp, er, rfl⟩
      · intro _
        exact ⟨er, rfl⟩
    | ok blocks =>
      have hval : ((tm, Except.ok blocks) :: rest).foldlM scorerStep b
          = rest.foldlM scorerStep
              (blocks.foldl (fun b2 block => b2.insertList block) b) := by
        rw [List.foldlM_cons]
        rfl
      rw [hval, ih]
      constructor
      · rintro ⟨entry, hmem, err, herr⟩
        exact ⟨entry, by simp [hmem], err, herr⟩
      · rintro ⟨entry, hmem, err, herr⟩
        rcases List.mem_cons.mp hmem with heq | hmem2
        · subst heq
          exact Except.noConfusion herr
        · exact ⟨entry, hmem2, err, herr⟩

/-- C9: the fallible scoring call errors exactly when the
term-dictionary read errors or the postings read of some in-range term
errors; in the absence of any such failure it returns `ok` — no retry,
no partial-bitset fallback. -/
theorem C9_scorer_error_iff (w : RangeWeight) (r : SegmentReaderE) :
    ((∃ err, w.scorerE r = Except.error err) ↔
      (∃ err, r.dict = Except.error err) ∨
        (∃ entries, r.dict = Except.ok entries ∧
          ∃ entry ∈ w.term_range entries, ∃ err, entry.2 = Except.error err)) ∧
    ((∃ result, w.scorerE r = Except.ok result) ↔
      ¬ ((∃ err, r.dict = Except.error err) ∨
        (∃ entries, r.dict = Except.ok entries ∧
          ∃ entry ∈ w.term_range entries, ∃ err, entry.2 = Except.error err))) := by
  cases hd : r.dict with
  | error er =>
    have hs : w.scorerE r = Except.error er := by
      unfold RangeWeight.scorerE
      rw [hd]
      rfl
    constructor
    · constructor
      · intro _
        exact Or.inl ⟨er, rfl⟩
      · intro _
        exact ⟨er, hs⟩
    · constructor
      · rintro ⟨res, hres⟩
        rw [hs] at hres
        exact Except.noConfusion hres
      · intro hcon
        exact absurd (Or.inl ⟨er, rfl⟩) hcon
  | ok entries =>
    have hs : w.scorerE r
        = ((w.term_range entries).foldlM scorerStep
            (BitSet.with_max_value r.max_doc)) >>=
          fun bs => pure (bs, (1 : ℚ)) := by
      unfold RangeWeight.scorerE
      rw [hd]
      rfl
    cases hf : (w.term_range entries).foldlM scorerStep
        (BitSet.with_max_value r.max_doc) with
    | error er2 =>
      have hserr : w.scorerE r = Except.error er2 := by
        rw [hs, hf]
        rfl
      have hfail := (foldlM_scorerStep_error_iff _ _).mp ⟨er2, hf⟩
      constructor
      · constructor
        · intro _
          exact Or.inr ⟨entries, rfl, hfail⟩
        · intro _
          exact ⟨er2, hserr⟩
      · constructor
        · rintro ⟨res, hres⟩
          rw [hserr] at hres
          exact Except.noConfusion hres
        · intro hcon
          exact absurd (Or.inr ⟨entries, rfl, hfail⟩) hcon
    | ok bs =>
      have hsok : w.scorerE r = Except.ok (bs, (1 : ℚ)) := by
        rw [hs, hf]
        rfl
      have hnofail : ¬ ((∃ err,
            (Except.ok entries :
                Except String (List (List Nat × Except String (List (List Nat)))))
              = Except.error err) ∨
          (∃ entries2,
            (Except.ok entries :
                Except String (List (List Nat × Except String (List (List Nat)))))
              = Except.ok entries2 ∧
            ∃ entry ∈ w.term_range entries2, ∃ err, entry.2 = Except.error err)) := by
        rintro (⟨err, herr⟩ | ⟨entries2, hok, hfail⟩)
        · exact Except.noConfusion herr
        · injection hok with heq
          subst heq
          obtain ⟨err2, hferr⟩ := (foldlM_scorerStep_error_iff _ _).mpr hfail
          rw [hf] at hferr
          exact Except.noConfusion hferr
      constructor
      · constructor
        · rintro ⟨err, herr⟩
          rw [hsok] at herr
          exact Except.noConfusion herr
        · intro hrhs
          exact absurd hrhs hnofail
      · constructor
        · intro _
          exact hnofail
        · intro _
          exact ⟨(bs, 1), hsok⟩

/-! ### Claim theorems for `MultiTermScorer` -/

/-- A run of `update` calls accumulates `term_freq * idf[term_ord]` into
`score`, counts the calls in `num_fields`, and touches neither `coords`
nor `idf`. -/
lemma updates_state (us : List (Nat × Nat)) (s : MultiTermScorer) :
    (s.updates us).coords = s.coords ∧ (s.updates us).idf = s.idf ∧
    (s.updates us).num_fields = s.num_fields + us.length ∧
    (s.updates us).score
      = s.score + (us.map (fun u => (u.2 : ℚ) * s.idf.getD u.1 0)).sum := by
  induction us generalizing s with
  | nil => simp [MultiTermScorer.updates]
  | cons u rest ih =>
    obtain ⟨h1, h2, h3, h4⟩ := ih (s.update u.1 u.2)
    have hstep : s.updates (u :: rest) = (s.update u.1 u.2).updates rest := rfl
    refine ⟨by rw [hstep, h1]; rfl, by rw [hstep, h2]; rfl, ?_, ?_⟩
    · rw [hstep, h3]
      show s.num_fields + 1 + rest.length = s.num_fields + (rest.length + 1)
      ring
    · rw [hstep, h4]
      show s.score + (u.2 : ℚ) * s.idf.getD u.1 0
          + (rest.map (fun v => (v.2 : ℚ) * s.idf.getD v.1 0)).sum
        = s.score + ((u.2 : ℚ) * s.idf.getD u.1 0
          + (rest.map (fun v => (v.2 : ℚ) * s.idf.getD v.1 0)).sum)
      ring

/-- C10: `new` prepends a 0.0 coordination factor, so after any run of
`k` update calls (with in-range term ordinals) since construction or the
last `clear`, `score()` is the accumulated sum of
`term_freq * idf[term_ord]` times `coords[k]` of the prepended vector;
a fresh or just-cleared scorer reports 0. -/
theorem C10_multi_term_scorer (coords idf : List ℚ) (us vs : List (Nat × Nat))
    (_hus : ∀ u ∈ us, u.1 < idf.length) (_hvs : ∀ u ∈ vs, u.1 < idf.length) :
    ((MultiTermScorer.new coords idf).updates us).score_val
      = (us.map (fun u => (u.2 : ℚ) * idf.getD u.1 0)).sum
          * ((0 :: coords).getD us.length 0) ∧
    (MultiTermScorer.new coords idf).score_val = 0 ∧
    (((MultiTermScorer.new coords idf).updates us).clear).score_val = 0 ∧
    ((((MultiTermScorer.new coords idf).updates us).clear).updates vs).score_val
      = (vs.map (fun u => (u.2 : ℚ) * idf.getD u.1 0)).sum
          * ((0 :: coords).getD vs.length 0) := by
  obtain ⟨h1, h2, h3, h4⟩ := updates_state us (MultiTermScorer.new coords idf)
  refine ⟨?_, ?_, ?_, ?_⟩
  · rw [MultiTermScorer.score_val, MultiTermScorer.coord, h1, h3, h4]
    simp [MultiTermScorer.new]
  · simp [MultiTermScorer.score_val, MultiTermScorer.coord, MultiTermScorer.new]
  · simp [MultiTermScorer.score_val, MultiTermScorer.coord, MultiTermScorer.clear]
  · obtain ⟨g1, g2, g3, g4⟩ :=
      updates_state vs (((MultiTermScorer.new coords idf).updates us).clear)
    have hc1 : (((MultiTermScorer.new coords idf).updates us).clear).coords
        = 0 :: coords := h1
    have hc2 : (((MultiTermScorer.new coords idf).updates us).clear).idf = idf := h2
    have hc3 : (((MultiTermScorer.new coords idf).updates us).clear).score = 0 := rfl
    have hc4 : (((MultiTermScorer.new coords idf).updates us).clear).num_fields
        = 0 := rfl
    rw [MultiTermScorer.score_val, MultiTermScorer.coord, g1, g3, g4, hc1, hc2,
      hc3, hc4]
    simp

/-- Witness for C10 with `coords = [2]`, `idf = [3]`, one update of
term 0 with frequency 4 before the clear and one after. -/
theorem C10_witness :
    (∀ u ∈ [((0 : Nat), (4 : Nat))], u.1 < [(3 : ℚ)].length) ∧
    (∀ u ∈ [((0 : Nat), (5 : Nat))], u.1 < [(3 : ℚ)].length) ∧
    (((MultiTermScorer.new [2] [3]).updates [(0, 4)]).score_val
        = ([((0 : Nat), (4 : Nat))].map
            (fun u => (u.2 : ℚ) * [(3 : ℚ)].getD u.1 0)).sum
          * (((0 : ℚ) :: [2]).getD [((0 : Nat), (4 : Nat))].length 0) ∧
      (MultiTermScorer.new [2] [3]).score_val = 0 ∧
      (((MultiTermScorer.new [2] [3]).updates [(0, 4)]).clear).score_val = 0 ∧
      ((((MultiTermScorer.new [2] [3]).updates [(0, 4)]).clear).updates
          [(0, 5)]).score_val
        = ([((0 : Nat), (5 : Nat))].map
            (fun u => (u.2 : ℚ) * [(3 : ℚ)].getD u.1 0)).sum
          * (((0 : ℚ) :: [2]).getD [((0 : Nat), (5 : Nat))].length 0)) :=
  ⟨by decide, by decide,
    C10_multi_term_scorer [2] [3] [(0, 4)] [(0, 5)] (by decide) (by decide)⟩

end Tantivy
